import Mathlib

/-!
Verification development for the chat-nyu scrape-clean-dedupe pipeline
(src/backend/get_data.py, src/backend/scraper.py).

Strings are modelled as `List Char`.  Library calls made by the Python code
(HTTP, BeautifulSoup parsing, markdownify, SHA-256, the robots policy reader)
are modelled as explicit parameters or small oracle data types; every piece of
logic written in the repository itself is translated directly.
-/

namespace ChatNYU

/-- Characters treated as whitespace by the Python code paths we model:
the ASCII whitespace class shared by `str.strip` and the regex `\s`
(restricted to ASCII; the exotic Unicode whitespace code points play no role
in any claim). -/
def isPyWhitespace (c : Char) : Bool :=
  c = ' ' || c = '\t' || c = '\n' || c = '\r' || c = '\x0b' || c = '\x0c'

/-- Character class of the horizontal-whitespace collapse regex
`[ \t]+` in `clean_markdown` (scraper.py line 66). -/
def isSpaceTab (c : Char) : Bool :=
  c = ' ' || c = '\t'

/-- Character class of the zero-width removal regex
(U+200B through U+200D and U+FEFF) in `clean_markdown` (scraper.py line 62). -/
def isZeroWidth (c : Char) : Bool :=
  c = '\u200B' || c = '\u200C' || c = '\u200D' || c = '\uFEFF'

/-- Straight apostrophe that `clean_markdown` substitutes for the curly
single quotes (scraper.py line 64). -/
def apos : Char := Char.ofNat 39

/-- Non-breaking space U+00A0 (scraper.py line 60). -/
def nbsp : Char := '\u00A0'

/-- Model of `unicodedata.normalize("NFKC", ...)` restricted to the character
repertoire relevant to the claims: it is the identity on ASCII and on the
curly quotes U+2018/U+2019/U+201C/U+201D and the zero-width characters
U+200B..U+200D/U+FEFF (all true of real NFKC, which has no decomposition for
any of them), and maps the non-breaking space U+00A0 to a plain space (also
true of real NFKC).  Combining-character recomposition is outside the model. -/
def nfkcChar (c : Char) : Char :=
  if c = nbsp then ' ' else c

/-- Model of `unicodedata.normalize("NFKC", text)` (scraper.py line 58),
applying `nfkcChar` to each character. -/
def nfkc (l : List Char) : List Char :=
  l.map nfkcChar

/-- Model of Python `str.replace(a, b)` for single characters. -/
def replaceChar (a b : Char) (l : List Char) : List Char :=
  l.map fun c => if c = a then b else c

/-- Model of the zero-width removal regex substitution
(scraper.py line 62). -/
def removeZeroWidth (l : List Char) : List Char :=
  l.filter fun c => !(isZeroWidth c)

/-- Steps 1-4 of `clean_markdown` (scraper.py lines 58-64): NFKC
normalization, non-breaking-space replacement, zero-width removal, and the two
curly-single-quote replacements.  Note the source replaces only U+2018 and
U+2019; the double curly quotes U+201C/U+201D are not touched. -/
def preClean (l : List Char) : List Char :=
  replaceChar '\u2019' apos (replaceChar '\u2018' apos
    (removeZeroWidth (replaceChar nbsp ' ' (nfkc l))))

/-- Model of `re.sub` with pattern `[ \t]+` and replacement a single space
(scraper.py line 66): every maximal run of spaces/tabs becomes one space. -/
def collapseSpaces : List Char → List Char
  | [] => []
  | c :: rest =>
    let t := collapseSpaces rest
    if isSpaceTab c then
      match t with
      | [] => [' ']
      | c2 :: _ => if c2 = ' ' then t else ' ' :: t
    else c :: t

/-- Model of `re.sub` with pattern `\n{3,}` and replacement of two newlines
(scraper.py line 68): every maximal run of three or more newlines becomes
exactly two. -/
def collapseNewlines : List Char → List Char
  | [] => []
  | c :: rest =>
    let t := collapseNewlines rest
    if c = '\n' then
      match t with
      | a :: b :: _ => if a = '\n' ∧ b = '\n' then t else '\n' :: t
      | _ => '\n' :: t
    else c :: t

/-- Model of `str.splitlines()` for newline-separated text
(scraper.py line 70).  It behaves as Python's `text.split("\n")`; the
difference with `splitlines` (the handling of a trailing newline and of
carriage-return-family boundaries) is invisible to the pipeline because every
line is subsequently stripped and the whole result is stripped. -/
def splitOnNewline : List Char → List (List Char)
  | [] => [[]]
  | c :: r =>
    match splitOnNewline r with
    | [] => [[]]
    | hd :: tl => if c = '\n' then [] :: hd :: tl else (c :: hd) :: tl

/-- Model of Python `"\n".join(...)` (scraper.py line 70). -/
def joinLines : List (List Char) → List Char
  | [] => []
  | [l] => l
  | l :: m :: ls => l ++ '\n' :: joinLines (m :: ls)

/-- Model of Python `str.strip()` over the modelled whitespace class. -/
def stripChars (l : List Char) : List Char :=
  (l.dropWhile isPyWhitespace).rdropWhile isPyWhitespace

/-- Model of the per-line strip step
(join of the stripped split lines, scraper.py line 70). -/
def stripLines (l : List Char) : List Char :=
  joinLines ((splitOnNewline l).map stripChars)

/-- Translation of `clean_markdown` (scraper.py lines 47-73): the full
normalization pipeline, steps in source order. -/
def clean_markdown (text : List Char) : List Char :=
  stripChars (stripLines (collapseNewlines (collapseSpaces (preClean text))))

/-- Decidable check for a run of three consecutive newlines. -/
def hasTripleNewline : List Char → Bool
  | a :: b :: c :: rest =>
    (a = '\n' && b = '\n' && c = '\n') || hasTripleNewline (b :: c :: rest)
  | _ => false

/-! ### Inline-script stripping (`remove_inline_js`, scraper.py lines 30-44) -/

/-- Helper for the lazy regex tails: splits a list at the first occurrence of
`pat`, returning the part strictly before it and the remainder strictly after
it, or `none` when `pat` does not occur. -/
def splitAtSub (pat : List Char) : List Char → Option (List Char × List Char)
  | [] => if pat.isEmpty then some ([], []) else none
  | c :: rest =>
    if pat.isPrefixOf (c :: rest) then some ([], (c :: rest).drop pat.length)
    else
      match splitAtSub pat rest with
      | some (b, a) => some (c :: b, a)
      | none => none

/-- Decidable substring occurrence, via `splitAtSub`. -/
def containsSub (pat l : List Char) : Bool :=
  (splitAtSub pat l).isSome

/-- Opening delimiter of the CDATA removal regex (scraper.py line 41). -/
def cdataOpen : List Char := "//<![CDATA[".data

/-- Closing delimiter of the CDATA removal regex (scraper.py line 41). -/
def cdataClose : List Char := "//]]>".data

/-- Model of `re.sub` with the DOTALL pattern removing
`//<![CDATA[` ... `//]]>` blocks (scraper.py line 41): at each position where
the opening delimiter occurs and a closing delimiter occurs later, the whole
block is deleted and scanning continues after it; an unmatched opening
delimiter is left in place.  The `fuel` argument only makes the recursion
structural: `removeCdataF_fuel` shows any fuel of at least the input length
gives the same result, and `removeCdata` always supplies enough. -/
def removeCdataF : Nat → List Char → List Char
  | _, [] => []
  | 0, l => l
  | fuel + 1, c :: rest =>
    if cdataOpen.isPrefixOf (c :: rest) then
      match splitAtSub cdataClose ((c :: rest).drop cdataOpen.length) with
      | some (_, after) => removeCdataF fuel after
      | none => c :: removeCdataF fuel rest
    else c :: removeCdataF fuel rest

/-- CDATA substitution with sufficient fuel. -/
def removeCdata (l : List Char) : List Char :=
  removeCdataF l.length l

/-- Character class `\w` of the var-statement regex, ASCII model. -/
def isWordChar (c : Char) : Bool :=
  c.isAlphanum || c = '_'

/-- Model of matching the DOTALL regex `var\s+\w+\s*=\s*.*?;`
(scraper.py line 43) at the start of the list; on success returns the
remainder after the match.  Because the lazy tail cannot skip a `;`, a match
always extends to the first `;` after the `=`; and because the classes
`\s`, `\w` and the literal `=` are pairwise disjoint, greedy munching is
equivalent to the backtracking search. -/
def matchVarStmt (l : List Char) : Option (List Char) :=
  if "var".data.isPrefixOf l then
    let l1 := l.drop 3
    if (l1.takeWhile isPyWhitespace).isEmpty then none
    else
      let l2 := l1.dropWhile isPyWhitespace
      if (l2.takeWhile isWordChar).isEmpty then none
      else
        match (l2.dropWhile isWordChar).dropWhile isPyWhitespace with
        | '=' :: l4 =>
          match splitAtSub [';'] l4 with
          | some (_, rem) => some rem
          | none => none
        | _ => none
  else none

/-- Model of `re.sub` with the var-statement pattern and empty replacement
(scraper.py line 43): leftmost matches are removed, scanning resumes after
each removed match.  As with `removeCdataF`, `fuel` only makes the recursion
structural. -/
def removeVarStmtsF : Nat → List Char → List Char
  | _, [] => []
  | 0, l => l
  | fuel + 1, c :: rest =>
    match matchVarStmt (c :: rest) with
    | some rem => removeVarStmtsF fuel rem
    | none => c :: removeVarStmtsF fuel rest

/-- Var-statement substitution with sufficient fuel. -/
def removeVarStmts (l : List Char) : List Char :=
  removeVarStmtsF l.length l

/-- Translation of `remove_inline_js` (scraper.py lines 30-44): the CDATA
substitution followed by the var-statement substitution. -/
def remove_inline_js (html : List Char) : List Char :=
  removeVarStmts (removeCdata html)

/-! ### Link absolutization (`convert_relative_to_absolute`, scraper.py 9-27) -/

/-- HTML fragments as BeautifulSoup's `html.parser` produces them: text nodes
and elements with an attribute list and children (tag and attribute names are
already lowercased by the library). -/
inductive HtmlNode where
  | text (s : String)
  | elem (tag : String) (attrs : List (String × String)) (children : List HtmlNode)

mutual
/-- Translation of `convert_relative_to_absolute` (scraper.py lines 9-27) at
the level of the parsed tree: `soup.find_all("a", href=True)` selects exactly
the anchor elements carrying an `href` attribute, at any depth, and the loop
assigns `a_tag["href"] = urljoin(base_url, a_tag["href"])`.  The library
function `urljoin` is passed as the parameter `uj`.  No other element or
attribute is touched. -/
def convert_relative_to_absolute (uj : String → String → String) (base : String) :
    HtmlNode → HtmlNode
  | .text s => .text s
  | .elem tag attrs children =>
    .elem tag
      (if tag = "a" ∧ attrs.any (fun p => p.1 = "href") then
        attrs.map (fun p => if p.1 = "href" then ("href", uj base p.2) else p)
      else attrs)
      (convertChildren uj base children)

/-- Pointwise extension of `convert_relative_to_absolute` to child lists. -/
def convertChildren (uj : String → String → String) (base : String) :
    List HtmlNode → List HtmlNode
  | [] => []
  | n :: ns => convert_relative_to_absolute uj base n :: convertChildren uj base ns
end

mutual
/-- Forgetful projection that blanks the value of every `href` attribute of
every anchor element; two trees agree under it exactly when they agree on
everything except possibly those values. -/
def eraseAnchorHref : HtmlNode → HtmlNode
  | .text s => .text s
  | .elem tag attrs children =>
    .elem tag
      (if tag = "a" then
        attrs.map (fun p => if p.1 = "href" then ("href", "") else p)
      else attrs)
      (eraseChildrenHref children)

/-- Pointwise extension of `eraseAnchorHref` to child lists. -/
def eraseChildrenHref : List HtmlNode → List HtmlNode
  | [] => []
  | n :: ns => eraseAnchorHref n :: eraseChildrenHref ns
end

/-- Serialization of an attribute list as `str(soup)` renders it. -/
def serializeAttrs : List (String × String) → String
  | [] => ""
  | p :: ps => " " ++ p.1 ++ "=\"" ++ p.2 ++ "\"" ++ serializeAttrs ps

mutual
/-- Serialization of a tree as `str(soup)` renders it. -/
def serializeNode : HtmlNode → String
  | .text s => s
  | .elem tag attrs children =>
    "<" ++ tag ++ serializeAttrs attrs ++ ">" ++ serializeChildren children
      ++ "</" ++ tag ++ ">"

/-- Serialization of a child list. -/
def serializeChildren : List HtmlNode → String
  | [] => ""
  | n :: ns => serializeNode n ++ serializeChildren ns
end

/-! ### Python values, exceptions, robots gate -/

/-- Python exceptions reaching the modelled code, carrying their `str(e)`. -/
inductive PyErr where
  | attributeError (msg : String)
  | valueError (msg : String)
  | requestError (msg : String)
deriving DecidableEq, Repr

/-- Python runtime values flowing through the scrape pipeline: the string and
single-field-dict shapes are the only ones the code produces. -/
inductive PyVal where
  | pyStr (s : String)
  | pyDict (key : String) (val : PyVal)
deriving DecidableEq, Repr

/-- Parsed robots policy: its `can_fetch("*", url)` decision function. -/
structure RobotsPolicy where
  canFetchStar : String → Bool

/-- Translation of `is_allowed_by_robots` (get_data.py lines 13-37).  The
`RobotFileParser.set_url`/`read` library calls are modelled by their joint
outcome `readRes`: either the parsed policy, or the exception the `try` block
raises.  The `except Exception: return False` clause is the `.error` arm. -/
def is_allowed_by_robots (readRes : Except PyErr RobotsPolicy) (url : String) :
    Bool :=
  match readRes with
  | .ok rp => rp.canFetchStar url
  | .error _ => false

/-! ### Page Fetcher (`fetch_content`, scraper.py lines 76-134) -/

/-- Outcome of the library half of `fetch_content`: `requests.get` plus
`raise_for_status` plus `soup.select_one(selector)`.  `matched` carries the
element the selector found, as the parsed tree. -/
inductive SelectOutcome where
  | httpFailure (e : PyErr)
  | selectorMiss
  | matched (element : HtmlNode)

/-- Translation of the deterministic tail of `fetch_content`
(scraper.py lines 103-134), parameterized by the library calls: `uj` is
`urllib.parse.urljoin`, `mdf` is `markdownify.markdownify` with the fixed
strip list, and `outcome` is the HTTP-and-selector result.  On a selector
miss it raises `ValueError`; on success it runs
`convert_relative_to_absolute`, `remove_inline_js`, `markdownify` and
`clean_markdown`, and returns the dict `{"markdown": markdown}` built on
line 134. -/
def fetch_content (uj : String → String → String) (mdf : String → String)
    (outcome : SelectOutcome) (url selector : String) : Except PyErr PyVal :=
  match outcome with
  | .httpFailure e => .error e
  | .selectorMiss =>
    .error (.valueError ("Selector " ++ selector ++ " not found on " ++ url))
  | .matched element =>
    let html := serializeNode (convert_relative_to_absolute uj url element)
    let html2 := String.mk (remove_inline_js html.data)
    let markdown := String.mk (clean_markdown (mdf html2).data)
    .ok (.pyDict "markdown" (.pyStr markdown))

/-! ### Scrape Orchestrator (`main` and helpers, get_data.py lines 40-147) -/

/-- Translation of `hash_content` (get_data.py lines 40-52) under Python's
dynamic semantics: `text.encode("utf-8")` succeeds only on a string — on the
dict that `fetch_content` actually returns it raises `AttributeError`.  The
SHA-256 digest itself is the library parameter `sha256hex`. -/
def hash_content (sha256hex : String → String) : PyVal → Except PyErr String
  | .pyStr s => .ok (sha256hex s)
  | .pyDict _ _ =>
    .error (.attributeError "dict object has no attribute encode")

/-- Message `str(e)` used when an exception is appended to errors.log. -/
def pyErrMsg : PyErr → String
  | .attributeError m => m
  | .valueError m => m
  | .requestError m => m

/-- Outcome of `json.loads` plus the `entry["url"]`/`entry.get("content_hash")`
accesses for one line of the durable store (get_data.py lines 72-74): `ok`
when the line parses to an object with a `url` key, `bad` when anything in the
`try` body raises (invalid JSON, a non-object line, a missing `url` key). -/
inductive StoreLine where
  | ok (url : String) (contentHash : Option String)
  | bad
deriving DecidableEq

/-- Python dict assignment `d[u] = h` on an association list: overwrites in
place, appends new keys at the end. -/
def insertKV (d : List (String × Option String)) (u : String)
    (h : Option String) : List (String × Option String) :=
  if (d.map Prod.fst).contains u then
    d.map fun p => if p.1 = u then (u, h) else p
  else d ++ [(u, h)]

/-- Replay of one store line (the body of the `for line in f` loop,
get_data.py lines 70-76): record the parsed line, `continue` past the bad
one. -/
def ledgerStep (d : List (String × Option String)) : StoreLine →
    List (String × Option String)
  | .ok u h => insertKV d u h
  | .bad => d

/-- Translation of `load_scraped_urls` (get_data.py lines 55-77): replay every
store line, record `url -> content_hash` for each line that parses, silently
`continue` past every line that raises. -/
def load_scraped_urls (store : List StoreLine) : List (String × Option String) :=
  store.foldl ledgerStep []

/-- Link Entry `{url, selector}` from links.json (get_data.py lines 105-106). -/
structure Site where
  url : String
  selector : String
deriving DecidableEq

/-- Scrape Record as serialized to data.jsonl (get_data.py lines 131-136).
The `content` field holds whatever value `fetch_content` returned. -/
structure ScrapeRecord where
  url : String
  scraped_at : String
  content_hash : String
  content : PyVal
deriving DecidableEq

/-- Error Entry as appended to errors.log (get_data.py lines 117-119, 147). -/
structure ErrorEntry where
  url : String
  reason : String
deriving DecidableEq

/-- Observable state of one run: the records appended to data.jsonl, the
entries appended to errors.log, and — for stating the dedup invariant — the
trace of URLs for which the Page Fetcher was actually invoked. -/
structure RunState where
  records : List ScrapeRecord
  errors : List ErrorEntry
  calls : List String
deriving DecidableEq

/-- Translation of one iteration of the `for site in sites` loop of `main`
(get_data.py lines 104-147): skip if the URL is a key of the replayed dict;
else consult the robots gate and log a blocked entry; else invoke the Page
Fetcher (recorded in `calls`), hash the returned content, append the record
on success, and on any exception append an error entry instead.  `robots`
abstracts the whole `is_allowed_by_robots` call (its own network read
included), `fetch` the whole `fetch_content` call, `ts` the
`time.strftime` timestamp, `sha256hex` the hashlib digest. -/
def processSite (sha256hex : String → String) (robots : String → Bool)
    (fetch : String → String → Except PyErr PyVal) (ts : String)
    (scraped : List (String × Option String)) (st : RunState) (site : Site) :
    RunState :=
  if (scraped.map Prod.fst).contains site.url then st
  else if robots site.url = false then
    { st with errors := st.errors ++ [⟨site.url, "Blocked by robots.txt"⟩] }
  else
    let st1 := { st with calls := st.calls ++ [site.url] }
    match fetch site.url site.selector with
    | .error e =>
      { st1 with errors := st1.errors ++ [⟨site.url, pyErrMsg e⟩] }
    | .ok content =>
      match hash_content sha256hex content with
      | .error e =>
        { st1 with errors := st1.errors ++ [⟨site.url, pyErrMsg e⟩] }
      | .ok hsh =>
        { st1 with records := st1.records ++ [⟨site.url, ts, hsh, content⟩] }

/-- Translation of `main` (get_data.py lines 80-147): load the dedup dict by
replaying the store, then process each Link Entry in order.  Totality of this
function is the forward-progress guarantee: no per-URL outcome aborts the
fold. -/
def main (sha256hex : String → String) (robots : String → Bool)
    (fetch : String → String → Except PyErr PyVal) (ts : String)
    (store : List StoreLine) (sites : List Site) : RunState :=
  sites.foldl (processSite sha256hex robots fetch ts (load_scraped_urls store))
    ⟨[], [], []⟩

/-! ### Regex-model lemmas: the fuel arguments are inert -/

theorem splitAtSub_length {pat l b a} (h : splitAtSub pat l = some (b, a)) :
    a.length ≤ l.length := by
  induction l generalizing b a with
  | nil =>
    simp only [splitAtSub] at h
    split at h
    · simp_all
    · simp_all
  | cons c rest ih =>
    simp only [splitAtSub] at h
    split at h
    · simp only [Option.some.injEq, Prod.mk.injEq] at h
      have ha : a = (c :: rest).drop pat.length := h.2.symm
      subst ha
      simp only [List.length_drop]
      omega
    · cases h2 : splitAtSub pat rest with
      | some p =>
        obtain ⟨b2, a2⟩ := p
        rw [h2] at h
        simp only [Option.some.injEq, Prod.mk.injEq] at h
        have hle := ih h2
        have ha : a = a2 := h.2.symm
        subst ha
        simp only [List.length_cons]
        omega
      | none => rw [h2] at h; exact absurd h (by simp)

theorem removeCdataF_fuel :
    ∀ (f1 f2 : Nat) (l : List Char), l.length ≤ f1 → l.length ≤ f2 →
      removeCdataF f1 l = removeCdataF f2 l := by
  intro f1
  induction f1 with
  | zero =>
    intro f2 l h1 _
    have : l = [] := List.length_eq_zero.mp (Nat.le_zero.mp h1)
    subst this
    cases f2 <;> rfl
  | succ f ih =>
    intro f2 l h1 h2
    cases l with
    | nil => cases f2 <;> rfl
    | cons c rest =>
      cases f2 with
      | zero => simp at h2
      | succ g =>
        simp only [removeCdataF]
        split
        · cases hs : splitAtSub cdataClose ((c :: rest).drop cdataOpen.length) with
          | some p =>
            obtain ⟨b, after⟩ := p
            have hlen := splitAtSub_length hs
            have hop : cdataOpen.length = 11 := rfl
            simp only [List.length_drop, hop, List.length_cons] at hlen
            simp only [List.length_cons] at h1 h2
            exact ih g after (by omega) (by omega)
          | none =>
            simp only [List.length_cons] at h1 h2
            rw [ih g rest (by omega) (by omega)]
        · simp only [List.length_cons] at h1 h2
          rw [ih g rest (by omega) (by omega)]

theorem matchVarStmt_length {l rem} (h : matchVarStmt l = some rem) :
    rem.length < l.length := by
  simp only [matchVarStmt] at h
  split at h
  case isTrue hpre =>
    have hlen3 : 3 ≤ l.length := by
      have := List.IsPrefix.length_le (List.isPrefixOf_iff_prefix.mp hpre)
      simpa using this
    split at h
    · exact absurd h (by simp)
    · split at h
      · exact absurd h (by simp)
      · have hd1 : (l.drop 3).length ≤ l.length - 3 := by simp
        have hd2 : ((l.drop 3).dropWhile isPyWhitespace).length ≤ (l.drop 3).length :=
          List.IsSuffix.length_le (List.dropWhile_suffix _)
        have hd3 :
            (((l.drop 3).dropWhile isPyWhitespace).dropWhile isWordChar).length ≤
              ((l.drop 3).dropWhile isPyWhitespace).length :=
          List.IsSuffix.length_le (List.dropWhile_suffix _)
        have hd4 :
            ((((l.drop 3).dropWhile isPyWhitespace).dropWhile isWordChar).dropWhile
                isPyWhitespace).length ≤
              (((l.drop 3).dropWhile isPyWhitespace).dropWhile isWordChar).length :=
          List.IsSuffix.length_le (List.dropWhile_suffix _)
        split at h
        case h_1 l4 heq =>
          cases hsp : splitAtSub [';'] l4 with
          | some p =>
            obtain ⟨b4, a4⟩ := p
            rw [hsp] at h
            simp only [Option.some.injEq] at h
            subst h
            have h5 := splitAtSub_length hsp
            have h6 : l4.length + 1 =
                ((((l.drop 3).dropWhile isPyWhitespace).dropWhile isWordChar).dropWhile
                  isPyWhitespace).length := by
              rw [heq]; simp
            omega
          | none => rw [hsp] at h; exact absurd h (by simp)
        case h_2 => exact absurd h (by simp)
  case isFalse => exact absurd h (by simp)

theorem removeVarStmtsF_fuel :
    ∀ (f1 f2 : Nat) (l : List Char), l.length ≤ f1 → l.length ≤ f2 →
      removeVarStmtsF f1 l = removeVarStmtsF f2 l := by
  intro f1
  induction f1 with
  | zero =>
    intro f2 l h1 _
    have : l = [] := List.length_eq_zero.mp (Nat.le_zero.mp h1)
    subst this
    cases f2 <;> rfl
  | succ f ih =>
    intro f2 l h1 h2
    cases l with
    | nil => cases f2 <;> rfl
    | cons c rest =>
      cases f2 with
      | zero => simp at h2
      | succ g =>
        simp only [removeVarStmtsF]
        cases hm : matchVarStmt (c :: rest) with
        | some rem =>
          have hlen := matchVarStmt_length hm
          simp only [List.length_cons] at h1 h2 hlen
          exact ih g rem (by omega) (by omega)
        | none =>
          simp only [List.length_cons] at h1 h2
          rw [ih g rest (by omega) (by omega)]

/-! ### Ledger lemmas -/

theorem insertKV_keys (d : List (String × Option String)) (u : String)
    (hsh : Option String) :
    (insertKV d u hsh).map Prod.fst =
      if (d.map Prod.fst).contains u then d.map Prod.fst
      else d.map Prod.fst ++ [u] := by
  by_cases h : (d.map Prod.fst).contains u
  · rw [insertKV, if_pos h, if_pos h, List.map_map]
    apply List.map_congr_left
    intro p _
    by_cases hp1 : p.1 = u
    · simp [hp1]
    · simp [hp1]
  · rw [insertKV, if_neg h, if_neg h]
    simp

theorem mem_keys_ledgerStep {v : String} {d : List (String × Option String)}
    (line : StoreLine) (h : v ∈ d.map Prod.fst) :
    v ∈ (ledgerStep d line).map Prod.fst := by
  cases line with
  | bad => exact h
  | ok u hsh =>
    rw [ledgerStep, insertKV_keys]
    split
    · exact h
    · exact List.mem_append_left _ h

theorem mem_keys_ledgerStep_self (d : List (String × Option String))
    (u : String) (hsh : Option String) :
    u ∈ (ledgerStep d (.ok u hsh)).map Prod.fst := by
  rw [ledgerStep, insertKV_keys]
  split
  case isTrue h => exact List.elem_iff.mp h
  case isFalse => simp

theorem mem_keys_foldl_ledger :
    ∀ (store : List StoreLine) (d : List (String × Option String)) (u : String)
      (hsh : Option String),
      (u ∈ d.map Prod.fst ∨ StoreLine.ok u hsh ∈ store) →
      u ∈ (store.foldl ledgerStep d).map Prod.fst := by
  intro store
  induction store with
  | nil =>
    intro d u hsh h
    rcases h with h | h
    · simpa using h
    · exact absurd h (List.not_mem_nil _)
  | cons line rest ih =>
    intro d u hsh h
    rw [List.foldl_cons]
    rcases h with h | h
    · exact ih _ u hsh (Or.inl (mem_keys_ledgerStep line h))
    · rcases List.mem_cons.mp h with h1 | h2
      · rw [← h1]
        exact ih _ u hsh (Or.inl (mem_keys_ledgerStep_self d u hsh))
      · exact ih _ u hsh (Or.inr h2)

theorem calls_foldl_not_mem (sha : String → String) (robots : String → Bool)
    (fetch : String → String → Except PyErr PyVal) (ts : String)
    (scraped : List (String × Option String)) (u : String)
    (hu : u ∈ scraped.map Prod.fst) :
    ∀ (sites : List Site) (st : RunState), u ∉ st.calls →
      u ∉ (sites.foldl (processSite sha robots fetch ts scraped) st).calls := by
  intro sites
  induction sites with
  | nil => intro st h; simpa using h
  | cons site rest ih =>
    intro st h
    rw [List.foldl_cons]
    apply ih
    unfold processSite
    by_cases h1 : (scraped.map Prod.fst).contains site.url
    · rw [if_pos h1]; exact h
    · have hne : site.url ≠ u := by
        intro he
        exact h1 (by rw [he]; exact List.elem_iff.mpr hu)
      rw [if_neg h1]
      have hcalls : u ∉ st.calls ++ [site.url] := by
        intro hmem
        rcases List.mem_append.mp hmem with hA | hB
        · exact h hA
        · have hueq : u = site.url := by simpa using hB
          exact hne hueq.symm
      by_cases h2 : robots site.url = false
      · rw [if_pos h2]; exact h
      · rw [if_neg h2]
        cases hf : fetch site.url site.selector with
        | error e => dsimp only; exact hcalls
        | ok content =>
          dsimp only
          cases hh : hash_content sha content with
          | error e => dsimp only; exact hcalls
          | ok hsh => dsimp only; exact hcalls

/-! ### Anchor-href lemmas -/

mutual
theorem erase_convert (uj : String → String → String) (base : String) :
    ∀ (n : HtmlNode),
      eraseAnchorHref (convert_relative_to_absolute uj base n) =
        eraseAnchorHref n
  | .text s => rfl
  | .elem tag attrs children => by
    rw [convert_relative_to_absolute, eraseAnchorHref, eraseAnchorHref,
      erase_convert_children uj base children]
    by_cases htag : tag = "a"
    · rw [if_pos htag]
      by_cases hcond : tag = "a" ∧ attrs.any (fun p => p.1 = "href")
      · rw [if_pos hcond, if_pos htag, List.map_map]
        have :
            ∀ p ∈ attrs,
              ((fun p => if p.1 = "href" then ("href", "") else p) ∘
                  fun p => if p.1 = "href" then ("href", uj base p.2) else p) p =
                (fun p => if p.1 = "href" then ("href", "") else p) p := by
          intro p _
          by_cases hp : p.1 = "href"
          · simp [hp]
          · simp [hp]
        rw [List.map_congr_left this]
      · rw [if_neg hcond, if_pos htag]
    · rw [if_neg htag, if_neg (fun hc => htag hc.1), if_neg htag]

theorem erase_convert_children (uj : String → String → String) (base : String) :
    ∀ (ns : List HtmlNode),
      eraseChildrenHref (convertChildren uj base ns) = eraseChildrenHref ns
  | [] => rfl
  | n :: ns => by
    rw [convertChildren, eraseChildrenHref, eraseChildrenHref,
      erase_convert uj base n, erase_convert_children uj base ns]
end

/-! ### Character-tracking lemmas for the cleaner -/

theorem mem_replaceChar {c a b : Char} {l : List Char}
    (h : c ∈ replaceChar a b l) : c = b ∨ (c ∈ l ∧ c ≠ a) := by
  rcases List.mem_map.mp h with ⟨d, hd, hdc⟩
  by_cases hda : d = a
  · left; rw [← hdc, if_pos hda]
  · right
    rw [← hdc, if_neg hda]
    exact ⟨hd, hda⟩

theorem not_mem_replaceChar_self {a b : Char} (l : List Char) (hab : a ≠ b) :
    a ∉ replaceChar a b l := by
  intro h
  rcases mem_replaceChar h with h | h
  · exact hab h
  · exact h.2 rfl

theorem mem_collapseSpaces {c : Char} :
    ∀ {l : List Char}, c ∈ collapseSpaces l →
      (c ∈ l ∧ isSpaceTab c = false) ∨ c = ' ' := by
  intro l
  induction l with
  | nil => intro hc; simp [collapseSpaces] at hc
  | cons d rest ih =>
    intro hc
    simp only [collapseSpaces] at hc
    by_cases hd : isSpaceTab d
    · rw [if_pos hd] at hc
      cases ht : collapseSpaces rest with
      | nil =>
        rw [ht] at hc
        dsimp only at hc
        right
        simpa using hc
      | cons c2 t2 =>
        rw [ht] at hc
        dsimp only at hc
        by_cases h2 : c2 = ' '
        · rw [if_pos h2] at hc
          rcases ih (ht ▸ hc) with h | h
          · exact Or.inl ⟨List.mem_cons_of_mem d h.1, h.2⟩
          · exact Or.inr h
        · rw [if_neg h2] at hc
          rcases List.mem_cons.mp hc with h | h
          · exact Or.inr h
          · rcases ih (ht ▸ h) with h3 | h3
            · exact Or.inl ⟨List.mem_cons_of_mem d h3.1, h3.2⟩
            · exact Or.inr h3
    · rw [if_neg hd] at hc
      rcases List.mem_cons.mp hc with h | h
      · subst h
        exact Or.inl ⟨List.mem_cons_self _ _, by simpa using hd⟩
      · rcases ih h with h3 | h3
        · exact Or.inl ⟨List.mem_cons_of_mem d h3.1, h3.2⟩
        · exact Or.inr h3

theorem mem_collapseNewlines {c : Char} :
    ∀ {l : List Char}, c ∈ collapseNewlines l → c ∈ l := by
  intro l
  induction l with
  | nil => intro hc; simp [collapseNewlines] at hc
  | cons d rest ih =>
    intro hc
    simp only [collapseNewlines] at hc
    by_cases hd : d = '\n'
    · rw [if_pos hd] at hc
      cases ht : collapseNewlines rest with
      | nil =>
        rw [ht] at hc
        subst hd
        simp only [List.mem_singleton] at hc
        exact hc ▸ List.mem_cons_self _ _
      | cons a t2 =>
        rw [ht] at hc
        cases t2 with
        | nil =>
          dsimp only at hc
          subst hd
          rcases List.mem_cons.mp hc with h | h
          · exact h ▸ List.mem_cons_self _ _
          · exact List.mem_cons_of_mem _ (ih (ht ▸ h))
        | cons b t3 =>
          dsimp only at hc
          by_cases hab : a = '\n' ∧ b = '\n'
          · rw [if_pos hab] at hc
            exact List.mem_cons_of_mem _ (ih (ht ▸ hc))
          · rw [if_neg hab] at hc
            rcases List.mem_cons.mp hc with h | h
            · subst hd; exact h ▸ List.mem_cons_self _ _
            · exact List.mem_cons_of_mem _ (ih (ht ▸ h))
    · rw [if_neg hd] at hc
      rcases List.mem_cons.mp hc with h | h
      · exact h ▸ List.mem_cons_self _ _
      · exact List.mem_cons_of_mem _ (ih h)

theorem mem_stripChars {c : Char} {l : List Char} (h : c ∈ stripChars l) :
    c ∈ l :=
  ((List.rdropWhile_prefix _ _).sublist.trans
    (List.dropWhile_suffix _).sublist).subset h

theorem split_cons : ∀ s : List Char, ∃ hd tl, splitOnNewline s = hd :: tl := by
  intro s
  cases s with
  | nil => exact ⟨[], [], rfl⟩
  | cons c r =>
    simp only [splitOnNewline]
    cases h : splitOnNewline r with
    | nil => exact ⟨[], [], rfl⟩
    | cons hd tl =>
      dsimp only
      by_cases hc : c = '\n'
      · rw [if_pos hc]; exact ⟨[], hd :: tl, rfl⟩
      · rw [if_neg hc]; exact ⟨c :: hd, tl, rfl⟩

theorem split_head_prefix :
    ∀ {s hd : List Char} {tl : List (List Char)},
      splitOnNewline s = hd :: tl → hd <+: s := by
  intro s
  induction s with
  | nil =>
    intro hd tl h
    simp only [splitOnNewline, List.cons.injEq] at h
    rw [← h.1]
  | cons c r ih =>
    intro hd tl h
    simp only [splitOnNewline] at h
    cases h2 : splitOnNewline r with
    | nil =>
      rw [h2] at h
      simp only [List.cons.injEq] at h
      rw [← h.1]
      exact List.nil_prefix
    | cons hd2 tl2 =>
      rw [h2] at h
      dsimp only at h
      by_cases hc : c = '\n'
      · rw [if_pos hc] at h
        simp only [List.cons.injEq] at h
        rw [← h.1]
        exact List.nil_prefix
      · rw [if_neg hc] at h
        simp only [List.cons.injEq] at h
        rw [← h.1]
        exact List.cons_prefix_cons.mpr ⟨rfl, ih h2⟩

theorem line_infix_of_mem_split :
    ∀ {s : List Char} {l' : List Char},
      l' ∈ splitOnNewline s → l' <:+: s := by
  intro s
  induction s with
  | nil =>
    intro l' h
    simp only [splitOnNewline, List.mem_singleton] at h
    subst h
    exact List.nil_infix
  | cons c r ih =>
    intro l' h
    simp only [splitOnNewline] at h
    obtain ⟨hd, tl, h2⟩ := split_cons r
    rw [h2] at h
    dsimp only at h
    by_cases hc : c = '\n'
    · rw [if_pos hc] at h
      rcases List.mem_cons.mp h with h3 | h3
      · subst h3; exact List.nil_infix
      · exact List.infix_cons (ih (h2 ▸ h3))
    · rw [if_neg hc] at h
      rcases List.mem_cons.mp h with h3 | h3
      · subst h3
        exact (List.cons_prefix_cons.mpr ⟨rfl, split_head_prefix h2⟩).isInfix
      · exact List.infix_cons (ih (h2 ▸ List.mem_cons_of_mem hd h3))

theorem newline_not_mem_split :
    ∀ {s l' : List Char}, l' ∈ splitOnNewline s → '\n' ∉ l' := by
  intro s
  induction s with
  | nil =>
    intro l' h
    simp only [splitOnNewline, List.mem_singleton] at h
    subst h
    exact List.not_mem_nil _
  | cons c r ih =>
    intro l' h
    simp only [splitOnNewline] at h
    obtain ⟨hd, tl, h2⟩ := split_cons r
    rw [h2] at h
    dsimp only at h
    by_cases hc : c = '\n'
    · rw [if_pos hc] at h
      rcases List.mem_cons.mp h with h3 | h3
      · subst h3; exact List.not_mem_nil _
      · exact ih (h2 ▸ h3)
    · rw [if_neg hc] at h
      rcases List.mem_cons.mp h with h3 | h3
      · subst h3
        intro hmem
        rcases List.mem_cons.mp hmem with h4 | h4
        · exact hc h4.symm
        · exact ih (h2 ▸ List.mem_cons_self hd tl) h4
      · exact ih (h2 ▸ List.mem_cons_of_mem hd h3)

theorem mem_joinLines {c : Char} :
    ∀ {ls : List (List Char)}, c ∈ joinLines ls →
      c = '\n' ∨ ∃ l ∈ ls, c ∈ l := by
  intro ls
  induction ls with
  | nil => intro h; simp [joinLines] at h
  | cons l ls' ih =>
    intro h
    cases ls' with
    | nil =>
      right
      exact ⟨l, List.mem_cons_self _ _, h⟩
    | cons m ls'' =>
      simp only [joinLines] at h
      rcases List.mem_append.mp h with h2 | h2
      · exact Or.inr ⟨l, List.mem_cons_self _ _, h2⟩
      · rcases List.mem_cons.mp h2 with h3 | h3
        · exact Or.inl h3
        · rcases ih h3 with h4 | ⟨l2, hl2, hcl2⟩
          · exact Or.inl h4
          · exact Or.inr ⟨l2, List.mem_cons_of_mem l hl2, hcl2⟩

theorem mem_stripLines {c : Char} {s : List Char} (h : c ∈ stripLines s) :
    c ∈ s ∨ c = '\n' := by
  rcases mem_joinLines h with h2 | ⟨m, hm, hcm⟩
  · exact Or.inr h2
  · rcases List.mem_map.mp hm with ⟨l', hl', hml'⟩
    exact Or.inl
      ((line_infix_of_mem_split hl').sublist.subset (mem_stripChars (hml' ▸ hcm)))

theorem mem_clean_markdown {c : Char} {x : List Char}
    (h : c ∈ clean_markdown x) :
    (c ∈ preClean x ∧ isSpaceTab c = false) ∨ c = ' ' ∨ c = '\n' := by
  have h1 : c ∈ stripLines (collapseNewlines (collapseSpaces (preClean x))) :=
    mem_stripChars h
  rcases mem_stripLines h1 with h2 | h2
  · have h3 := mem_collapseNewlines h2
    rcases mem_collapseSpaces h3 with h4 | h4
    · exact Or.inl h4
    · exact Or.inr (Or.inl h4)
  · exact Or.inr (Or.inr h2)

/-! ### Characters absent from cleaned output -/

theorem nbsp_not_mem_preClean (x : List Char) : nbsp ∉ preClean x := by
  intro h
  rcases mem_replaceChar h with h1 | h1
  · exact absurd h1 (by decide)
  · rcases mem_replaceChar h1.1 with h2 | h2
    · exact absurd h2 (by decide)
    · have h3 : nbsp ∈ replaceChar nbsp ' ' (nfkc x) := List.mem_of_mem_filter h2.1
      exact not_mem_replaceChar_self _ (by decide) h3

theorem zw_not_mem_preClean {c : Char} (x : List Char)
    (hzw : isZeroWidth c = true) : c ∉ preClean x := by
  intro h
  rcases mem_replaceChar h with h1 | h1
  · rw [h1] at hzw; exact absurd hzw (by decide)
  · rcases mem_replaceChar h1.1 with h2 | h2
    · rw [h2] at hzw; exact absurd hzw (by decide)
    · have h3 := List.of_mem_filter h2.1
      rw [hzw] at h3
      exact absurd h3 (by decide)

theorem quote_single_open_not_mem_preClean (x : List Char) :
    '‘' ∉ preClean x := by
  intro h
  rcases mem_replaceChar h with h1 | h1
  · exact absurd h1 (by decide)
  · exact not_mem_replaceChar_self _ (by decide) h1.1

theorem quote_single_close_not_mem_preClean (x : List Char) :
    '’' ∉ preClean x :=
  not_mem_replaceChar_self _ (by decide)

theorem nbsp_not_mem_clean (x : List Char) : nbsp ∉ clean_markdown x := by
  intro h
  rcases mem_clean_markdown h with h1 | h1 | h1
  · exact nbsp_not_mem_preClean x h1.1
  · exact absurd h1 (by decide)
  · exact absurd h1 (by decide)

theorem zw_not_mem_clean {c : Char} (x : List Char)
    (hzw : isZeroWidth c = true) : c ∉ clean_markdown x := by
  intro h
  rcases mem_clean_markdown h with h1 | h1 | h1
  · exact zw_not_mem_preClean x hzw h1.1
  · rw [h1] at hzw; exact absurd hzw (by decide)
  · rw [h1] at hzw; exact absurd hzw (by decide)

theorem tab_not_mem_clean (x : List Char) : '\t' ∉ clean_markdown x := by
  intro h
  rcases mem_clean_markdown h with h1 | h1 | h1
  · exact absurd h1.2 (by decide)
  · exact absurd h1 (by decide)
  · exact absurd h1 (by decide)

theorem quote_open_not_mem_clean (x : List Char) : '‘' ∉ clean_markdown x := by
  intro h
  rcases mem_clean_markdown h with h1 | h1 | h1
  · exact quote_single_open_not_mem_preClean x h1.1
  · exact absurd h1 (by decide)
  · exact absurd h1 (by decide)

theorem quote_close_not_mem_clean (x : List Char) : '’' ∉ clean_markdown x := by
  intro h
  rcases mem_clean_markdown h with h1 | h1 | h1
  · exact quote_single_close_not_mem_preClean x h1.1
  · exact absurd h1 (by decide)
  · exact absurd h1 (by decide)

/-- C7 (amended): the cleaner does remove every single curly quote — neither
U+2018 nor U+2019 ever appears in cleaned output, for any input. -/
theorem c7_single_curly_quotes_removed (x : List Char) :
    '‘' ∉ clean_markdown x ∧ '’' ∉ clean_markdown x :=
  ⟨quote_open_not_mem_clean x, quote_close_not_mem_clean x⟩

/-! ### Fixpoint lemmas for the cleaner stages -/

theorem nfkc_eq_self {l : List Char} (h : nbsp ∉ l) : nfkc l = l := by
  have h2 : ∀ c ∈ l, nfkcChar c = id c := by
    intro c hc
    by_cases hce : c = nbsp
    · exact absurd (hce ▸ hc) h
    · rw [nfkcChar, if_neg hce]; rfl
  rw [nfkc, List.map_congr_left h2, List.map_id]

theorem replaceChar_eq_self {a b : Char} {l : List Char} (h : a ∉ l) :
    replaceChar a b l = l := by
  have h2 : ∀ c ∈ l, (if c = a then b else c) = id c := by
    intro c hc
    by_cases hce : c = a
    · exact absurd (hce ▸ hc) h
    · rw [if_neg hce]; rfl
  rw [replaceChar, List.map_congr_left h2, List.map_id]

theorem removeZeroWidth_eq_self {l : List Char}
    (h : ∀ c ∈ l, isZeroWidth c = false) : removeZeroWidth l = l := by
  rw [removeZeroWidth, List.filter_eq_self]
  intro c hc
  rw [h c hc]
  rfl

theorem preClean_eq_self {l : List Char} (h0 : nbsp ∉ l)
    (h1 : ∀ c ∈ l, isZeroWidth c = false) (h2 : '‘' ∉ l) (h3 : '’' ∉ l) :
    preClean l = l := by
  rw [preClean, nfkc_eq_self h0, replaceChar_eq_self h0,
    removeZeroWidth_eq_self h1, replaceChar_eq_self h2, replaceChar_eq_self h3]

/-- Adjacent-pair relation forbidding two spaces/tabs in a row: the invariant
established by the horizontal-whitespace collapse. -/
def spacedOk (a b : Char) : Prop :=
  ¬(isSpaceTab a = true ∧ isSpaceTab b = true)

theorem collapseSpaces_eq_self :
    ∀ {l : List Char}, '\t' ∉ l → l.Chain' spacedOk → collapseSpaces l = l := by
  intro l
  induction l with
  | nil => intro _ _; rfl
  | cons d rest ih =>
    intro htab hch
    have htr : '\t' ∉ rest := fun h => htab (List.mem_cons_of_mem d h)
    have hcr : rest.Chain' spacedOk := hch.tail
    have hrw : collapseSpaces rest = rest := ih htr hcr
    simp only [collapseSpaces, hrw]
    by_cases hd : isSpaceTab d
    · have hdsp : d = ' ' := by
        have hd2 : d = ' ' ∨ d = '\t' := by
          simp only [isSpaceTab, Bool.or_eq_true, decide_eq_true_eq] at hd
          exact hd
        rcases hd2 with h | h
        · exact h
        · exact absurd (h ▸ List.mem_cons_self d rest) htab
      rw [if_pos hd]
      cases hrest : rest with
      | nil => rw [hdsp]
      | cons c2 t2 =>
        dsimp only
        have hc2 : c2 ≠ ' ' := by
          intro he
          have hpair : spacedOk d c2 := (List.chain'_cons.mp (hrest ▸ hch)).1
          exact hpair ⟨hd, by rw [he]; rfl⟩
        rw [if_neg hc2, hdsp]
    · rw [if_neg hd]

theorem hasTripleNewline_tail {d : Char} {rest : List Char}
    (h : hasTripleNewline (d :: rest) = false) :
    hasTripleNewline rest = false := by
  cases rest with
  | nil => rfl
  | cons b r2 =>
    cases r2 with
    | nil => rfl
    | cons c r3 =>
      simp only [hasTripleNewline, Bool.or_eq_false_iff] at h
      exact h.2

theorem collapseNewlines_eq_self :
    ∀ {l : List Char}, hasTripleNewline l = false → collapseNewlines l = l := by
  intro l
  induction l with
  | nil => intro _; rfl
  | cons d rest ih =>
    intro h
    have hrw : collapseNewlines rest = rest := ih (hasTripleNewline_tail h)
    simp only [collapseNewlines, hrw]
    by_cases hd : d = '\n'
    · rw [if_pos hd]
      cases hrest : rest with
      | nil => rw [hd]
      | cons a t2 =>
        cases t2 with
        | nil => rw [hd]
        | cons b t3 =>
          dsimp only
          have hab : ¬(a = '\n' ∧ b = '\n') := by
            intro ⟨ha, hb⟩
            rw [hrest] at h
            subst hd ha hb
            simp [hasTripleNewline] at h
          rw [if_neg hab, hd]
    · rw [if_neg hd]

/-! ### Split/join lemmas -/

theorem join_split : ∀ s : List Char, joinLines (splitOnNewline s) = s := by
  intro s
  induction s with
  | nil => rfl
  | cons c r ih =>
    simp only [splitOnNewline]
    obtain ⟨hd, tl, h2⟩ := split_cons r
    rw [h2]
    dsimp only
    by_cases hc : c = '\n'
    · rw [if_pos hc]
      have : joinLines ([] :: hd :: tl) = '\n' :: joinLines (hd :: tl) := rfl
      rw [this, ← h2, ih, hc]
    · rw [if_neg hc]
      cases tl with
      | nil =>
        have hj : joinLines [c :: hd] = c :: hd := rfl
        rw [hj]
        have : joinLines (splitOnNewline r) = joinLines [hd] := by rw [h2]
        rw [ih] at this
        simp only [joinLines] at this
        rw [this]
      | cons m tl2 =>
        have hj : joinLines ((c :: hd) :: m :: tl2) =
            c :: joinLines (hd :: m :: tl2) := by
          simp [joinLines]
        rw [hj, ← h2, ih]

theorem split_no_newline {a : List Char} (h : '\n' ∉ a) :
    splitOnNewline a = [a] := by
  induction a with
  | nil => rfl
  | cons c r ih =>
    have hc : c ≠ '\n' := fun he => h (he ▸ List.mem_cons_self c r)
    have hr : '\n' ∉ r := fun hm => h (List.mem_cons_of_mem c hm)
    simp only [splitOnNewline, ih hr]
    rw [if_neg hc]

theorem split_append_line {a : List Char} (h : '\n' ∉ a) :
    ∀ {m : List Char} {hd : List Char} {tl : List (List Char)},
      splitOnNewline m = hd :: tl →
      splitOnNewline (a ++ m) = (a ++ hd) :: tl := by
  induction a with
  | nil => intro m hd tl hm; simpa using hm
  | cons c a2 ih =>
    intro m hd tl hm
    have hc : c ≠ '\n' := fun he => h (he ▸ List.mem_cons_self c a2)
    have ha2 : '\n' ∉ a2 := fun hmem => h (List.mem_cons_of_mem c hmem)
    have h3 := ih ha2 hm
    simp only [List.cons_append, splitOnNewline, List.append_eq, h3]
    rw [if_neg hc]

theorem split_join :
    ∀ {ls : List (List Char)}, ls ≠ [] → (∀ l ∈ ls, '\n' ∉ l) →
      splitOnNewline (joinLines ls) = ls := by
  intro ls
  induction ls with
  | nil => intro h _; exact absurd rfl h
  | cons l ls' ih =>
    intro _ hnl
    cases ls' with
    | nil =>
      have : joinLines [l] = l := rfl
      rw [this, split_no_newline (hnl l (List.mem_cons_self _ _))]
    | cons m ls'' =>
      have hj : joinLines (l :: m :: ls'') = l ++ '\n' :: joinLines (m :: ls'') :=
        rfl
      rw [hj]
      have hrec : splitOnNewline (joinLines (m :: ls'')) = m :: ls'' :=
        ih (by simp) (fun x hx => hnl x (List.mem_cons_of_mem l hx))
      have hsplit2 : splitOnNewline ('\n' :: joinLines (m :: ls'')) =
          [] :: m :: ls'' := by
        simp [splitOnNewline, hrec]
      have := split_append_line (hnl l (List.mem_cons_self _ _)) hsplit2
      rw [this]
      simp

/-! ### Strip fixpoints and idempotence -/

theorem stripChars_fix_parts {l : List Char} (h : stripChars l = l) :
    l.dropWhile isPyWhitespace = l ∧ l.rdropWhile isPyWhitespace = l := by
  have h1 : (l.dropWhile isPyWhitespace).rdropWhile isPyWhitespace = l := h
  have hp : ((l.dropWhile isPyWhitespace).rdropWhile isPyWhitespace).length ≤
      (l.dropWhile isPyWhitespace).length :=
    (List.rdropWhile_prefix _ _).length_le
  have hs : (l.dropWhile isPyWhitespace).length ≤ l.length :=
    (List.dropWhile_suffix _).length_le
  rw [h1] at hp
  have hdw : l.dropWhile isPyWhitespace = l :=
    (List.dropWhile_suffix _).eq_of_length (by omega)
  rw [hdw] at h1
  exact ⟨hdw, h1⟩

theorem stripChars_head_false {d : Char} {t : List Char}
    (h : stripChars (d :: t) = d :: t) : isPyWhitespace d = false := by
  have hdw := (stripChars_fix_parts h).1
  by_cases hw : isPyWhitespace d
  · rw [List.dropWhile_cons, if_pos hw] at hdw
    have hlen : (t.dropWhile isPyWhitespace).length ≤ t.length :=
      (List.dropWhile_suffix _).length_le
    rw [hdw] at hlen
    simp at hlen
  · simpa using hw

theorem stripChars_last_false {l : List Char} (h : stripChars l = l)
    (hne : l ≠ []) : isPyWhitespace (l.getLast hne) = false := by
  have hrd := (stripChars_fix_parts h).2
  have := List.rdropWhile_eq_self_iff.mp hrd hne
  simpa using this

theorem dropWhile_eq_cons_head_false {p : Char → Bool} :
    ∀ {l : List Char} {d : Char} {t3 : List Char},
      l.dropWhile p = d :: t3 → p d = false := by
  intro l
  induction l with
  | nil => intro d t3 h; simp at h
  | cons c r ih =>
    intro d t3 h
    rw [List.dropWhile_cons] at h
    by_cases hc : p c
    · rw [if_pos hc] at h; exact ih h
    · rw [if_neg hc] at h
      injection h with h1 _
      rw [← h1]
      simpa using hc

theorem stripChars_idem (l : List Char) :
    stripChars (stripChars l) = stripChars l := by
  have hA : (stripChars l).dropWhile isPyWhitespace = stripChars l := by
    cases hm : stripChars l with
    | nil => rfl
    | cons d t =>
      have hpre : stripChars l <+: l.dropWhile isPyWhitespace :=
        List.rdropWhile_prefix _ _
      rw [hm] at hpre
      obtain ⟨t2, ht2⟩ := hpre
      have hform : l.dropWhile isPyWhitespace = d :: (t ++ t2) := by
        rw [← ht2]; simp
      have hd : isPyWhitespace d = false := dropWhile_eq_cons_head_false hform
      rw [List.dropWhile_cons, hd]
      simp
  conv_lhs => rw [stripChars]
  rw [hA, stripChars, List.rdropWhile_idempotent]

theorem joinLines_concat :
    ∀ (ns : List (List Char)) (l : List Char), ns ≠ [] →
      joinLines (ns ++ [l]) = joinLines ns ++ '\n' :: l := by
  intro ns
  induction ns with
  | nil => intro l h; exact absurd rfl h
  | cons m ns2 ih =>
    intro l _
    cases ns2 with
    | nil => rfl
    | cons x xs =>
      have h1 : joinLines ((m :: x :: xs) ++ [l]) =
          m ++ '\n' :: joinLines ((x :: xs) ++ [l]) := rfl
      rw [h1, ih l (by simp)]
      have h2 : joinLines (m :: x :: xs) = m ++ '\n' :: joinLines (x :: xs) :=
        rfl
      rw [h2]
      simp

theorem dropWhile_joinLines :
    ∀ {ns : List (List Char)}, (∀ l ∈ ns, stripChars l = l) →
      (joinLines ns).dropWhile isPyWhitespace =
        joinLines (ns.dropWhile List.isEmpty) := by
  intro ns
  induction ns with
  | nil => intro _; rfl
  | cons l ns2 ih =>
    intro hstrip
    have hrec : ∀ m ∈ ns2, stripChars m = m :=
      fun m hm => hstrip m (List.mem_cons_of_mem l hm)
    cases hl : l with
    | nil =>
      subst hl
      cases ns2 with
      | nil => rfl
      | cons m ns3 =>
        have hj : joinLines ([] :: m :: ns3) = '\n' :: joinLines (m :: ns3) :=
          rfl
        rw [hj, List.dropWhile_cons]
        have hnlws : isPyWhitespace '\n' = true := by decide
        rw [if_pos hnlws, ih hrec]
        rfl
    | cons d l2 =>
      subst hl
      have hne : isPyWhitespace d = false :=
        stripChars_head_false (hstrip _ (List.mem_cons_self _ _))
      have hright : ((d :: l2) :: ns2).dropWhile List.isEmpty =
          (d :: l2) :: ns2 := by
        rw [List.dropWhile_cons]
        simp
      rw [hright]
      cases ns2 with
      | nil =>
        have hj : joinLines [d :: l2] = d :: l2 := rfl
        rw [hj, List.dropWhile_cons, hne]
        simp
      | cons m ns3 =>
        have hj : joinLines ((d :: l2) :: m :: ns3) =
            d :: (l2 ++ '\n' :: joinLines (m :: ns3)) := rfl
        rw [hj, List.dropWhile_cons, hne]
        simp

theorem rdropWhile_joinLines :
    ∀ {ns : List (List Char)}, (∀ l ∈ ns, stripChars l = l) →
      (joinLines ns).rdropWhile isPyWhitespace =
        joinLines (ns.rdropWhile List.isEmpty) := by
  intro ns
  induction ns using List.reverseRecOn with
  | nil => intro _; rfl
  | append_singleton ns l ih =>
    intro hstrip
    have hlmem : l ∈ ns ++ [l] := List.mem_append_right _ (List.mem_cons_self _ _)
    by_cases hnsnil : ns = []
    · subst hnsnil
      cases hl : l with
      | nil => subst hl; rfl
      | cons d l2 =>
        subst hl
        have hfix : stripChars (d :: l2) = d :: l2 := hstrip _ hlmem
        have hself : (d :: l2).rdropWhile isPyWhitespace = d :: l2 := by
          apply List.rdropWhile_eq_self_iff.mpr
          intro hne
          rw [stripChars_last_false hfix hne]
          simp
        have hj : joinLines ([] ++ [d :: l2]) = d :: l2 := rfl
        rw [hj, hself]
        have hr : ([] ++ [d :: l2]).rdropWhile List.isEmpty = [d :: l2] := by
          rw [List.nil_append, List.rdropWhile_singleton]
          simp
        rw [hr]
        rfl
    · rw [joinLines_concat ns l hnsnil]
      have hrec : ∀ m ∈ ns, stripChars m = m :=
        fun m hm => hstrip m (List.mem_append_left _ hm)
      cases hl : l with
      | nil =>
        subst hl
        have hstep : joinLines ns ++ '\n' :: ([] : List Char) =
            joinLines ns ++ ['\n'] := rfl
        rw [hstep, List.rdropWhile_concat_pos _ _ _ (by decide), ih hrec]
        have hr : (ns ++ [([] : List Char)]).rdropWhile List.isEmpty =
            ns.rdropWhile List.isEmpty := by
          apply List.rdropWhile_concat_pos
          rfl
        rw [hr]
      | cons d l2 =>
        subst hl
        have hfix : stripChars (d :: l2) = d :: l2 := hstrip _ hlmem
        have hlast : isPyWhitespace ((d :: l2).getLast (by simp)) = false :=
          stripChars_last_false hfix (by simp)
        have hself : (joinLines ns ++ '\n' :: (d :: l2)).rdropWhile
            isPyWhitespace = joinLines ns ++ '\n' :: (d :: l2) := by
          apply List.rdropWhile_eq_self_iff.mpr
          intro hne
          have hgl : (joinLines ns ++ '\n' :: (d :: l2)).getLast hne =
              (d :: l2).getLast (by simp) := by
            rw [List.getLast_append]
            simp
          rw [hgl, hlast]
          simp
        rw [hself]
        have hr : (ns ++ [d :: l2]).rdropWhile List.isEmpty = ns ++ [d :: l2] := by
          apply List.rdropWhile_concat_neg
          simp
        rw [hr, joinLines_concat ns _ hnsnil]

theorem stripChars_joinLines {ms : List (List Char)}
    (h : ∀ l ∈ ms, stripChars l = l) :
    stripChars (joinLines ms) =
      joinLines ((ms.dropWhile List.isEmpty).rdropWhile List.isEmpty) := by
  have h2 : ∀ l ∈ ms.dropWhile List.isEmpty, stripChars l = l :=
    fun l hl => h l ((List.dropWhile_suffix _).sublist.subset hl)
  rw [stripChars, dropWhile_joinLines h, rdropWhile_joinLines h2]

theorem stripLines_eq_self {l : List Char}
    (h : ∀ l2 ∈ splitOnNewline l, stripChars l2 = l2) : stripLines l = l := by
  have h2 : ∀ l2 ∈ splitOnNewline l, stripChars l2 = id l2 := h
  rw [stripLines, List.map_congr_left h2, List.map_id, join_split]

theorem lines_of_clean_stripped (x : List Char) :
    ∀ l2 ∈ splitOnNewline (clean_markdown x), stripChars l2 = l2 := by
  intro l2 hl2
  have hms : ∀ m ∈ (splitOnNewline
      (collapseNewlines (collapseSpaces (preClean x)))).map stripChars,
      stripChars m = m := by
    intro m hm
    rcases List.mem_map.mp hm with ⟨l3, _, hml3⟩
    rw [← hml3]
    exact stripChars_idem l3
  have hclean : clean_markdown x =
      joinLines ((((splitOnNewline
        (collapseNewlines (collapseSpaces (preClean x)))).map
          stripChars).dropWhile List.isEmpty).rdropWhile List.isEmpty) :=
    stripChars_joinLines hms
  have hsub : ∀ m ∈ (((splitOnNewline
      (collapseNewlines (collapseSpaces (preClean x)))).map
        stripChars).dropWhile List.isEmpty).rdropWhile List.isEmpty,
      m ∈ (splitOnNewline
        (collapseNewlines (collapseSpaces (preClean x)))).map stripChars :=
    fun m hm =>
      (List.dropWhile_suffix _).sublist.subset
        ((List.rdropWhile_prefix _ _).sublist.subset hm)
  by_cases hms2 : (((splitOnNewline
      (collapseNewlines (collapseSpaces (preClean x)))).map
        stripChars).dropWhile List.isEmpty).rdropWhile List.isEmpty = []
  · rw [hms2] at hclean
    rw [hclean] at hl2
    simp only [joinLines, splitOnNewline, List.mem_singleton] at hl2
    rw [hl2]
    rfl
  · have hnl : ∀ m ∈ (((splitOnNewline
        (collapseNewlines (collapseSpaces (preClean x)))).map
          stripChars).dropWhile List.isEmpty).rdropWhile List.isEmpty,
        '\n' ∉ m := by
      intro m hm hmem
      rcases List.mem_map.mp (hsub m hm) with ⟨l3, hl3, hml3⟩
      exact newline_not_mem_split hl3 (mem_stripChars (hml3 ▸ hmem))
    rw [hclean, split_join hms2 hnl] at hl2
    rcases List.mem_map.mp (hsub l2 hl2) with ⟨l3, _, hml3⟩
    rw [← hml3]
    exact stripChars_idem l3

/-! ### Adjacency invariants -/

theorem collapseSpaces_head (d : Char) (r : List Char) :
    ∃ t, collapseSpaces (d :: r) = (if isSpaceTab d then ' ' else d) :: t := by
  simp only [collapseSpaces]
  by_cases hd : isSpaceTab d
  · rw [if_pos hd, if_pos hd]
    cases ht : collapseSpaces r with
    | nil => exact ⟨[], rfl⟩
    | cons c2 t2 =>
      dsimp only
      by_cases h2 : c2 = ' '
      · rw [if_pos h2]
        exact ⟨t2, by rw [h2]⟩
      · rw [if_neg h2]
        exact ⟨c2 :: t2, rfl⟩
  · rw [if_neg hd, if_neg hd]
    exact ⟨collapseSpaces r, rfl⟩

theorem chain_collapseSpaces : ∀ l : List Char,
    (collapseSpaces l).Chain' spacedOk := by
  intro l
  induction l with
  | nil => simp [collapseSpaces]
  | cons d rest ih =>
    simp only [collapseSpaces]
    by_cases hd : isSpaceTab d
    · rw [if_pos hd]
      cases ht : collapseSpaces rest with
      | nil => simp
      | cons c2 t2 =>
        dsimp only
        by_cases h2 : c2 = ' '
        · rw [if_pos h2, ← ht]
          exact ih
        · rw [if_neg h2]
          apply List.chain'_cons.mpr
          refine ⟨?_, ht ▸ ih⟩
          intro ⟨_, hc2⟩
          cases rest with
          | nil => simp [collapseSpaces] at ht
          | cons e r2 =>
            obtain ⟨t3, ht3⟩ := collapseSpaces_head e r2
            rw [ht3] at ht
            injection ht with ht1 _
            by_cases he : isSpaceTab e
            · rw [if_pos he] at ht1; exact h2 ht1.symm
            · rw [if_neg he] at ht1
              rw [← ht1] at hc2
              exact absurd hc2 (by simp [he])
    · rw [if_neg hd]
      apply List.chain'_cons'.mpr
      refine ⟨?_, ih⟩
      intro y _
      intro ⟨hd2, _⟩
      exact absurd hd2 (by simp [hd])

theorem collapseNewlines_head (d : Char) (r : List Char) :
    ∃ t, collapseNewlines (d :: r) = d :: t := by
  simp only [collapseNewlines]
  by_cases hd : d = '\n'
  · rw [if_pos hd]
    cases ht : collapseNewlines r with
    | nil => exact ⟨[], by rw [hd]⟩
    | cons a t2 =>
      cases t2 with
      | nil => exact ⟨[a], by rw [hd]⟩
      | cons b t3 =>
        dsimp only
        by_cases hab : a = '\n' ∧ b = '\n'
        · rw [if_pos hab]
          exact ⟨b :: t3, by rw [hd, hab.1]⟩
        · rw [if_neg hab]
          exact ⟨a :: b :: t3, by rw [hd]⟩
  · rw [if_neg hd]
    exact ⟨collapseNewlines r, rfl⟩

theorem collapseNewlines_head? (l : List Char) :
    (collapseNewlines l).head? = l.head? := by
  cases l with
  | nil => rfl
  | cons d r =>
    obtain ⟨t, ht⟩ := collapseNewlines_head d r
    rw [ht]
    rfl

theorem chain_collapseNewlines {R : Char → Char → Prop} :
    ∀ {l : List Char}, l.Chain' R → (collapseNewlines l).Chain' R := by
  intro l
  induction l with
  | nil => intro _; simp [collapseNewlines]
  | cons d rest ih =>
    intro h
    obtain ⟨hhd, htl⟩ := List.chain'_cons'.mp h
    have hih := ih htl
    simp only [collapseNewlines]
    by_cases hd : d = '\n'
    · rw [if_pos hd]
      cases ht : collapseNewlines rest with
      | nil => simp
      | cons a t2 =>
        have hha : a ∈ rest.head? := by
          rw [← collapseNewlines_head? rest, ht]
          rfl
        cases t2 with
        | nil =>
          apply List.chain'_cons.mpr
          exact ⟨hd ▸ hhd a hha, by simp⟩
        | cons b t3 =>
          dsimp only
          by_cases hab : a = '\n' ∧ b = '\n'
          · rw [if_pos hab, ← ht]
            exact hih
          · rw [if_neg hab]
            apply List.chain'_cons.mpr
            exact ⟨hd ▸ hhd a hha, ht ▸ hih⟩
    · rw [if_neg hd]
      apply List.chain'_cons'.mpr
      refine ⟨?_, hih⟩
      intro y hy
      apply hhd
      rw [← collapseNewlines_head? rest]
      exact hy

theorem stripChars_infix_self (l : List Char) : stripChars l <:+: l :=
  (List.rdropWhile_prefix _ _).isInfix.trans (List.dropWhile_suffix _).isInfix

theorem chain_joinLines {R : Char → Char → Prop}
    (hR : ∀ c : Char, R c '\n' ∧ R '\n' c) :
    ∀ {ls : List (List Char)}, (∀ l ∈ ls, l.Chain' R) →
      (joinLines ls).Chain' R := by
  intro ls
  induction ls with
  | nil => intro _; simp [joinLines]
  | cons l ls2 ih =>
    intro h
    cases ls2 with
    | nil => exact h l (List.mem_cons_self _ _)
    | cons m ls3 =>
      have hj : joinLines (l :: m :: ls3) = l ++ '\n' :: joinLines (m :: ls3) :=
        rfl
      rw [hj]
      apply List.chain'_append.mpr
      refine ⟨h l (List.mem_cons_self _ _), ?_, ?_⟩
      · apply List.chain'_cons'.mpr
        exact ⟨fun y _ => (hR y).2, ih fun x hx => h x (List.mem_cons_of_mem l hx)⟩
      · intro c _ y hy
        simp only [List.head?_cons, Option.mem_def, Option.some.injEq] at hy
        rw [← hy]
        exact (hR c).1

theorem chain_clean_markdown (x : List Char) :
    (clean_markdown x).Chain' spacedOk := by
  have hR : ∀ c : Char, spacedOk c '\n' ∧ spacedOk '\n' c := by
    intro c
    constructor
    · intro ⟨_, hb⟩; exact absurd hb (by decide)
    · intro ⟨ha, _⟩; exact absurd ha (by decide)
  have h6 : (collapseNewlines (collapseSpaces (preClean x))).Chain' spacedOk :=
    chain_collapseNewlines (chain_collapseSpaces _)
  have h7 : (stripLines
      (collapseNewlines (collapseSpaces (preClean x)))).Chain' spacedOk := by
    apply chain_joinLines hR
    intro m hm
    rcases List.mem_map.mp hm with ⟨l3, hl3, hml3⟩
    rw [← hml3]
    have h8 := h6.infix (line_infix_of_mem_split hl3)
    exact h8.infix (stripChars_infix_self l3)
  exact h7.infix (stripChars_infix_self _)

/-! ### Idempotence of the cleaner -/

/-- C4 counterexample: `clean_markdown` is not idempotent.  On
`a\n \n \nb` the first pass strips the two space-only lines into empty
lines AFTER the newline collapse already ran, so its output `a\n\n\nb`
contains a fresh run of three newlines that only a second pass collapses. -/
theorem c4_clean_markdown_not_idempotent_cex :
    clean_markdown (clean_markdown "a\n \n \nb".data) ≠
      clean_markdown "a\n \n \nb".data := by
  decide

/-- C4 (amended): the normalization is idempotent on every input whose
cleaned form contains no run of three or more newlines — the only way a
second pass can differ (in the modelled character repertoire) is the newline
re-collapse exhibited by the counterexample. -/
theorem c4_clean_markdown_idem_of_no_triple_newline (x : List Char)
    (h : hasTripleNewline (clean_markdown x) = false) :
    clean_markdown (clean_markdown x) = clean_markdown x := by
  have hnb : nbsp ∉ clean_markdown x := nbsp_not_mem_clean x
  have hzw : ∀ c ∈ clean_markdown x, isZeroWidth c = false := by
    intro c hc
    by_cases hz : isZeroWidth c
    · exact absurd hc (zw_not_mem_clean x hz)
    · simpa using hz
  have hq1 : '‘' ∉ clean_markdown x := quote_open_not_mem_clean x
  have hq2 : '’' ∉ clean_markdown x := quote_close_not_mem_clean x
  have htab : '\t' ∉ clean_markdown x := tab_not_mem_clean x
  have hchain : (clean_markdown x).Chain' spacedOk := chain_clean_markdown x
  have hpre : preClean (clean_markdown x) = clean_markdown x :=
    preClean_eq_self hnb hzw hq1 hq2
  have hcs : collapseSpaces (clean_markdown x) = clean_markdown x :=
    collapseSpaces_eq_self htab hchain
  have hcn : collapseNewlines (clean_markdown x) = clean_markdown x :=
    collapseNewlines_eq_self h
  have hsl : stripLines (clean_markdown x) = clean_markdown x :=
    stripLines_eq_self (lines_of_clean_stripped x)
  have hsc : stripChars (clean_markdown x) = clean_markdown x := by
    have hdef : clean_markdown x = stripChars (stripLines
        (collapseNewlines (collapseSpaces (preClean x)))) := rfl
    rw [hdef, stripChars_idem]
  calc clean_markdown (clean_markdown x)
      = stripChars (stripLines (collapseNewlines (collapseSpaces
          (preClean (clean_markdown x))))) := rfl
    _ = clean_markdown x := by rw [hpre, hcs, hcn, hsl, hsc]

/-- Witness for the amended C4 at a concrete input. -/
theorem c4_clean_markdown_idem_witness :
    hasTripleNewline (clean_markdown "ab\ncd".data) = false ∧
    clean_markdown (clean_markdown "ab\ncd".data) =
      clean_markdown "ab\ncd".data :=
  ⟨by decide, c4_clean_markdown_idem_of_no_triple_newline _ (by decide)⟩

/-! ### Claim theorems -/

/-- C1: the claim says a successful Page Fetcher call leads to a content hash
over the fetched content and exactly one Scrape Record appended, with no
Error Entry.  The code violates this: `fetch_content` returns the dict built
on scraper.py line 134, `hash_content` then raises `AttributeError` on it
(get_data.py line 128 via line 52), so the run below — one URL, robots
allowing, fetch succeeding with cleaned markdown "hello" — appends zero
records and one error entry, even though the fetcher was invoked. -/
theorem c1_successful_fetch_writes_error_not_record :
    main (fun _ => "h") (fun _ => true)
        (fun u sel =>
          fetch_content (fun _ r => r) id (.matched (.text "hello")) u sel)
        "T" [] [⟨"https://example.edu/a", "main"⟩] =
      ⟨[], [⟨"https://example.edu/a", "dict object has no attribute encode"⟩],
        ["https://example.edu/a"]⟩ := by
  decide

/-- C2: the claim says `fetch_content` returns the cleaned Markdown text when
the GET succeeds and the selector matches.  The code violates this: on the
matched element `hello` (urljoin and markdownify taken as identity oracles)
it returns the dict `{"markdown": "hello"}` — scraper.py line 134 — which is
not the string `"hello"` its own docstring promises. -/
theorem c2_fetch_content_returns_dict_not_string :
    fetch_content (fun _ r => r) id (.matched (.text "hello"))
        "https://example.edu/page" "main" =
      .ok (.pyDict "markdown" (.pyStr "hello")) ∧
    ∀ s : String,
      fetch_content (fun _ r => r) id (.matched (.text "hello"))
          "https://example.edu/page" "main" ≠ .ok (.pyStr s) := by
  refine ⟨rfl, ?_⟩
  intro s h
  rw [show fetch_content (fun _ r => r) id
      (.matched (.text "hello")) "https://example.edu/page" "main" =
      .ok (.pyDict "markdown" (.pyStr "hello")) from rfl] at h
  simp at h

/-- C3: the claim says that with 6 Link Entries, fetcher errors at positions
2 and 5 and successes elsewhere, the run produces 4 Scrape Records and
2 Error Entries.  The run does complete (the fold is total), but because
every "successful" fetch returns the dict that `hash_content` chokes on, the
code produces 0 records and 6 error entries instead. -/
theorem c3_run_with_two_fetch_errors_yields_no_records :
    (main (fun _ => "h") (fun _ => true)
        (fun u sel =>
          if u = "https://e.edu/2" ∨ u = "https://e.edu/5" then
            .error (.requestError "boom")
          else fetch_content (fun _ r => r) id (.matched (.text "hello")) u sel)
        "T" []
        [⟨"https://e.edu/0", "s"⟩, ⟨"https://e.edu/1", "s"⟩,
          ⟨"https://e.edu/2", "s"⟩, ⟨"https://e.edu/3", "s"⟩,
          ⟨"https://e.edu/4", "s"⟩, ⟨"https://e.edu/5", "s"⟩]).records.length =
        0 ∧
    (main (fun _ => "h") (fun _ => true)
        (fun u sel =>
          if u = "https://e.edu/2" ∨ u = "https://e.edu/5" then
            .error (.requestError "boom")
          else fetch_content (fun _ r => r) id (.matched (.text "hello")) u sel)
        "T" []
        [⟨"https://e.edu/0", "s"⟩, ⟨"https://e.edu/1", "s"⟩,
          ⟨"https://e.edu/2", "s"⟩, ⟨"https://e.edu/3", "s"⟩,
          ⟨"https://e.edu/4", "s"⟩, ⟨"https://e.edu/5", "s"⟩]).errors.length =
        6 := by
  constructor
  · decide
  · decide

/-- C5: if a well-formed Scrape Record for `u` is in the store before the run
(so `u` is a key of the replayed dedup dict), the orchestrator never invokes
the Page Fetcher for `u`: `u` never enters the fetch-call trace. -/
theorem c5_recorded_url_never_fetched (sha : String → String)
    (robots : String → Bool) (fetch : String → String → Except PyErr PyVal)
    (ts : String) (store : List StoreLine) (sites : List Site) (u : String)
    (hsh : Option String) (hmem : StoreLine.ok u hsh ∈ store) :
    u ∉ (main sha robots fetch ts store sites).calls := by
  have hu : u ∈ (load_scraped_urls store).map Prod.fst :=
    mem_keys_foldl_ledger store [] u hsh (Or.inr hmem)
  exact calls_foldl_not_mem sha robots fetch ts _ u hu sites ⟨[], [], []⟩
    (by simp)

/-- Witness for C5 at a concrete store and site list. -/
theorem c5_recorded_url_never_fetched_witness :
    "https://x" ∉ (main (fun _ => "h") (fun _ => true)
        (fun _ _ => .error (.requestError "e")) "T"
        [StoreLine.ok "https://x" none] [⟨"https://x", "s"⟩]).calls :=
  c5_recorded_url_never_fetched _ _ _ _ _ _ _ none (by simp)

/-- C6: whenever the robots `try` body raises — any exception at all — the
gate returns `False` (disallowed), never `True`. -/
theorem c6_robots_gate_fails_closed (e : PyErr) (url : String) :
    is_allowed_by_robots (Except.error e) url = false := rfl

/-- C8: a malformed store line is skipped during ledger replay with no other
effect: the replayed dict is exactly the one obtained with the line absent,
so every well-formed record before and after it is still indexed, and replay
never aborts. -/
theorem c8_malformed_store_line_skipped (pre post : List StoreLine) :
    load_scraped_urls (pre ++ StoreLine.bad :: post) =
      load_scraped_urls (pre ++ post) := by
  unfold load_scraped_urls
  rw [List.foldl_append, List.foldl_append, List.foldl_cons]
  rfl

/-- C9: link absolutization touches nothing but the `href` value of anchor
elements: blanking those values makes the converted tree literally equal to
the blanked input, for every fragment and every base URL — in particular a
relative URL in any non-anchor attribute (an `img src`, say) survives
unchanged. -/
theorem c9_convert_only_rewrites_anchor_href (uj : String → String → String)
    (base : String) (n : HtmlNode) :
    eraseAnchorHref (convert_relative_to_absolute uj base n) =
      eraseAnchorHref n :=
  erase_convert uj base n

/-- C10: the inline-script stripper is pure pattern matching over the
serialized HTML: the fragment `<p>var x = 1;</p>` contains no script element
and no CDATA section, yet its visible text `var x = 1;` matches the
var-statement pattern and is deleted. -/
theorem c10_remove_inline_js_deletes_plain_text :
    containsSub "<script".data "<p>var x = 1;</p>".data = false ∧
    containsSub "CDATA".data "<p>var x = 1;</p>".data = false ∧
    containsSub "var x = 1;".data "<p>var x = 1;</p>".data = true ∧
    remove_inline_js "<p>var x = 1;</p>".data = "<p></p>".data ∧
    containsSub "var x = 1;".data
      (remove_inline_js "<p>var x = 1;</p>".data) = false := by
  decide

/-- C7 counterexample: the claim says every curly quote, single and double,
is replaced.  The code only replaces U+2018/U+2019 (scraper.py line 64): on
input `“ab”` the cleaned output still contains the double curly quote
U+201C. -/
theorem c7_double_curly_quote_survives_cex :
    '“' ∈ clean_markdown "“ab”".data := by decide

example : clean_markdown "hello".data = "hello".data := by decide

example :
    clean_markdown "a\n \n \nb".data = "a\n\n\nb".data := by decide

end ChatNYU
